import Mathlib

/-!
Verification of the tfocus resource-discovery and targeted-execution
pipeline, shallowly embedded from the repository's three source files
`src/types.rs`, `src/project.rs` and `src/executor.rs`.

Conventions of the embedding:
* Rust `String` and `PathBuf` both become Lean `String`; path strings are
  joined with "/" as on the Unix target the source handles.
* Rust `Result<T>` (with the crate's `TfocusError`) becomes
  `Except TfocusError T`.
* Filesystem reads and the child process are oracles: the directory tree
  is a value of an inductive type, a file's readability is the presence of
  its content, and the spawned child's fate is an explicit outcome value.
* Rust's byte-wise `Ord` on `String` is modelled by lexicographic
  comparison of the code-point sequences; on valid UTF-8 the byte order
  and the code-point order coincide.
-/

namespace Tfocus

/-! ### Characters and substring search (Rust `str::contains`) -/

/-- The opening brace character, written by code point. -/
def braceOpen : Char := Char.ofNat 123

/-- The closing brace character, written by code point. -/
def braceClose : Char := Char.ofNat 125

/-- The double-quote character, written by code point. -/
def quoteChar : Char := Char.ofNat 34

/-- `leadsWith l pat`: the character list `pat` is a prefix of `l`. -/
def leadsWith : List Char → List Char → Bool
  | _, [] => true
  | [], _ :: _ => false
  | c :: cs, k :: ks => c == k && leadsWith cs ks

/-- `stripLeading l pat`: the rest of `l` behind the prefix `pat`, `none`
when `pat` is not a prefix of `l`. -/
def stripLeading : List Char → List Char → Option (List Char)
  | l, [] => some l
  | [], _ :: _ => none
  | c :: cs, k :: ks => if c == k then stripLeading cs ks else none

/-- `occursInL l pat`: `pat` occurs contiguously somewhere in `l`
(Rust `str::contains` on the underlying sequences). -/
def occursInL : List Char → List Char → Bool
  | [], pat => pat.isEmpty
  | c :: cs, pat => leadsWith (c :: cs) pat || occursInL cs pat

/-- Rust `str::contains`: `pat` is a contiguous substring of `s`. -/
def occursIn (s pat : String) : Bool :=
  occursInL s.toList pat.toList

/-! ### Rust `Ord` on `String` and `bool`, as the sort comparator needs -/

/-- Lexicographic three-way comparison of code-point sequences; models
Rust's byte-lexicographic `Ord` on `String` (the orders agree on UTF-8). -/
def cmpChars : List Char → List Char → Ordering
  | [], [] => Ordering.eq
  | [], _ :: _ => Ordering.lt
  | _ :: _, [] => Ordering.gt
  | a :: xs, b :: ys =>
    match compare a.toNat b.toNat with
    | Ordering.eq => cmpChars xs ys
    | o => o

/-- Rust `String::cmp`. -/
def cmpStr (a b : String) : Ordering :=
  cmpChars a.toList b.toList

/-- Rust `bool::cmp`: `false < true`. -/
def cmpBool : Bool → Bool → Ordering
  | false, false => Ordering.eq
  | false, true => Ordering.lt
  | true, false => Ordering.gt
  | true, true => Ordering.eq

/-! ### Rust `Path::parent` and `Path::extension` (only what the source uses) -/

/-- Model of Rust `Path::parent().map(Path::to_path_buf)`: `none` for the
empty path and for the root, otherwise the path with its last component
removed (`"main.tf"` has parent `""`, `"/a"` has parent `"/"`). -/
def pathParent (p : String) : Option String :=
  if p = "" || p = "/" then none
  else
    let rev := p.toList.reverse
    match rev.dropWhile (fun c => c != '/') with
    | [] => some ""
    | _ :: tail =>
      match tail with
      | [] => some "/"
      | _ => some (String.mk tail.reverse)

/-- Model of `path.extension().map_or(false, |ext| ext == "tf")` applied to
the final component `name`: the name ends in ".tf" and has a non-empty stem
(Rust gives a hidden file such as ".tf" no extension). -/
def hasTfExt (name : String) : Bool :=
  let cs := name.toList
  decide (3 < cs.length) && (cs.drop (cs.length - 3) == ".tf".toList)

/-! ### src/types.rs — the entity model -/

/-- `Resource` (src/types.rs lines 4-20): a discovered resource or module
declaration with its repetition metadata. -/
structure Resource where
  resource_type : String
  name : String
  is_module : Bool
  file_path : String
  has_count : Bool
  has_for_each : Bool
  index : Option String
deriving DecidableEq, Repr

/-- `Resource::full_name` (src/types.rs lines 24-30). -/
def Resource.full_name (r : Resource) : String :=
  if r.is_module then "module." ++ r.name
  else r.resource_type ++ "." ++ r.name

/-- `Resource::target_string` (src/types.rs lines 33-39): the match on
`(has_count, has_for_each, index)`. -/
def Resource.target_string (r : Resource) : String :=
  let base := r.full_name
  match r.has_count, r.has_for_each, r.index with
  | true, _, some idx => base ++ "[" ++ idx ++ "]"
  | _, true, some idx => base ++ "[" ++ idx ++ "]"
  | _, _, _ => base

/-- `Target` (src/types.rs lines 43-48). -/
inductive Target where
  | File (path : String) : Target
  | Module (name : String) : Target
  | Resource (resource_type : String) (name : String) : Target
deriving DecidableEq, Repr

/-! ### The crate's error type and operation kind -/

/-- Modelled from the spec: the error enum of the crate's error module
(src/error.rs is not among the provided source files). The variants are
those §7 of the spec lists and the constructors `src/project.rs` and
`src/executor.rs` apply: I/O failure, pattern-compilation failure, the
dedicated "no declaration files found" kind, parse-stage errors, an invalid
operation choice, a launch/wait failure, and a non-zero external exit. -/
inductive TfocusError where
  | Io (msg : String) : TfocusError
  | NoTerraformFiles : TfocusError
  | RegexError (msg : String) : TfocusError
  | ParseError (msg : String) : TfocusError
  | InvalidOperation (msg : String) : TfocusError
  | CommandExecutionError (msg : String) : TfocusError
  | TerraformError (msg : String) : TfocusError
deriving DecidableEq, Repr

/-- Modelled from the spec: the operation kind the selection UI chooses
between (src/cli.rs is not among the provided source files); §4.5 of the
spec names the two supported kinds, Plan and Apply. -/
inductive Operation where
  | Plan : Operation
  | Apply : Operation
deriving DecidableEq, Repr

/-! ### src/executor.rs — pure stages of the targeted executor -/

/-- `create_target_options` (src/executor.rs lines 67-78): one
`-target=<target_string>` flag per entity, in input order; the empty list
is the "No targets specified" error. -/
def create_target_options (resources : List Resource) :
    Except TfocusError (List String) :=
  let target_options := resources.map (fun r => "-target=" ++ r.target_string)
  if target_options.isEmpty then
    Except.error (TfocusError.ParseError "No targets specified")
  else
    Except.ok target_options

/-- `get_working_directory` (src/executor.rs lines 112-117): the first
entity's declaring file's parent directory, `"."` when that file path has
no parent; the empty entity list is the "No resources specified" error. -/
def get_working_directory (resources : List Resource) :
    Except TfocusError String :=
  match resources.head? with
  | some r => Except.ok ((pathParent r.file_path).getD ".")
  | none => Except.error (TfocusError.ParseError "No resources specified")

/-- The child's fate once spawned: `exited success statusText` stands for
`Ok(status)` from `child.wait()` (with `status.success()` and the status's
display text), `waitError` for `Err(e)`. -/
inductive WaitOutcome where
  | exited (success : Bool) (statusText : String) : WaitOutcome
  | waitError (msg : String) : WaitOutcome
deriving DecidableEq, Repr

/-- The spawn attempt's fate: `spawnError` stands for `command.spawn()`
failing, `spawned` for a live child whose wait ends as given. -/
inductive SpawnOutcome where
  | spawnError (msg : String) : SpawnOutcome
  | spawned (wait : WaitOutcome) : SpawnOutcome
deriving DecidableEq, Repr

/-- `execute_terraform_command` (src/executor.rs lines 120-185). The child
process enters as the `spawn` oracle; `running` is the value the shared
cancellation flag holds when it is loaded after `child.wait()` returns
(the interrupt handler stores `false` into it). `Except.ok true` is the
Succeeded outcome, `Except.ok false` the Cancelled one. The source's match
order: `Ok(status) if status.success()` branches on the flag, any other
`Ok(status)` is the TerraformError case, `Err(e)` the wait failure. -/
def execute_terraform_command (operation : Operation)
    (target_options : List String) (working_dir : String)
    (spawn : SpawnOutcome) (running : Bool) : Except TfocusError Bool :=
  match spawn with
  | SpawnOutcome.spawnError e =>
    Except.error (TfocusError.CommandExecutionError e)
  | SpawnOutcome.spawned w =>
    match w with
    | WaitOutcome.exited true _ =>
      if running then Except.ok true else Except.ok false
    | WaitOutcome.exited false status =>
      Except.error (TfocusError.TerraformError
        ("Terraform command failed with status: " ++ status))
    | WaitOutcome.waitError e =>
      Except.error (TfocusError.CommandExecutionError
        ("Failed to execute terraform command: " ++ e))

/-- `select_operation` (src/executor.rs lines 81-109): the external
selector's answer enters as the `sel` oracle; payload "1" is Plan, "2" is
Apply, any other payload the InvalidOperation error, and "no choice"
(`none`) ends the whole invocation successfully (the source calls
`process::exit(0)` there, modelled as `Except.ok none`). -/
def select_operation (sel : Except TfocusError (Option String)) :
    Except TfocusError (Option Operation) :=
  match sel with
  | Except.error e => Except.error e
  | Except.ok (some input) =>
    if input = "1" then Except.ok (some Operation.Plan)
    else if input = "2" then Except.ok (some Operation.Apply)
    else Except.error (TfocusError.InvalidOperation input)
  | Except.ok none => Except.ok none

/-- `execute_with_resources` (src/executor.rs lines 18-35): the stage order
of one invocation — build the target flags, choose the operation, resolve
the working directory from the same entity slice, then run the external
command; the suggestion printed on a successful Plan is advisory output and
not modelled. -/
def execute_with_resources (sel : Except TfocusError (Option String))
    (spawn : SpawnOutcome) (running : Bool) (resources : List Resource) :
    Except TfocusError Unit :=
  match create_target_options resources with
  | Except.error e => Except.error e
  | Except.ok target_options =>
    match select_operation sel with
    | Except.error e => Except.error e
    | Except.ok none => Except.ok ()
    | Except.ok (some operation) =>
      match get_working_directory resources with
      | Except.error e => Except.error e
      | Except.ok working_dir =>
        match execute_terraform_command operation target_options working_dir
            spawn running with
        | Except.error e => Except.error e
        | Except.ok _ => Except.ok ()

/-! ### src/project.rs — declaration scanner

The directory tree the scanner walks is a value: a file node carries its
content when `fs::read_to_string` would succeed on it and `none` when that
read would fail; a directory node carries `readable := false` when
`fs::read_dir` on it would fail. The scanner pairs each kept path with the
content found at it (the source returns the path and re-reads the file
later; the tree is immutable, so carrying the content along is the same
read). The root directory itself is given as its entry list, so the model
covers trees whose root read succeeds. -/

/-- A node of the scanned directory tree. -/
inductive FsTree where
  | file (name : String) (content : Option String) : FsTree
  | dir (name : String) (readable : Bool) (entries : List FsTree) : FsTree

/-- The reserved tool-state path segment the source tests for. -/
def segTerraform : String := "/.terraform/"

/-- The version-control path segment the source tests for. -/
def segGit : String := "/.git/"

/-- The recursion of `find_terraform_files` (src/project.rs lines 24-46)
over one directory's entry list at path `p`. The first component is the
source function's return value: kept `(path, content)` pairs in entry
order, or the first I/O error (an entry after a failing one is never
reached, as `?` propagates). The second component instruments the
embedding: the paths of the subdirectories on which `fs::read_dir` is
invoked, i.e. those the descent actually enters. -/
def scanEntries (p : String) :
    List FsTree → Except TfocusError (List (String × Option String)) × List String
  | [] => (Except.ok [], [])
  | FsTree.file name content :: rest =>
    let path := p ++ "/" ++ name
    let keep := hasTfExt name && !(occursIn path segTerraform)
    (match scanEntries p rest with
     | (r, v) =>
       ((if keep then r.map (fun tf_files => (path, content) :: tf_files) else r), v))
  | FsTree.dir name readable sub :: rest =>
    let path := p ++ "/" ++ name
    if !(occursIn path segTerraform) && !(occursIn path segGit) then
      if readable then
        match scanEntries path sub with
        | (Except.error e, v) => (Except.error e, path :: v)
        | (Except.ok found, v) =>
          (match scanEntries p rest with
           | (r, v2) => (r.map (fun tf_files => found ++ tf_files), (path :: v) ++ v2))
      else (Except.error (TfocusError.Io ("read_dir " ++ path)), [path])
    else scanEntries p rest

/-- `find_terraform_files` (src/project.rs lines 24-46) run on the root
directory `p` with entry list `entries`. -/
def find_terraform_files (p : String) (entries : List FsTree) :
    Except TfocusError (List (String × Option String)) :=
  (scanEntries p entries).1

/-- The directories the scan invokes `fs::read_dir` on: the root and every
subdirectory the descent enters (the instrumented second component). -/
def visited_dirs (p : String) (entries : List FsTree) : List String :=
  p :: (scanEntries p entries).2

/-! ### src/project.rs — the structural text scan of one file

The two fixed patterns of `parse_file` (src/project.rs lines 80-82 and
102-103) are

  `(?m)^\s*resource\s+"([^"]+)"\s+"([^"]+)"\s*\{(?s:.*?)\n\s*\}`
  `(?m)^\s*module\s+"([^"]+)"\s*\{(?s:.*?)\n\s*\}`

and `captures_iter` yields their successive non-overlapping leftmost
matches. The functions below execute exactly these two patterns: a match
may begin only where `(?m)^` holds (the start of the text or right after a
newline); `\s*`/`\s+` consume the regex whitespace class; a quoted token is
one or more non-quote characters between double quotes; and the lazy body
`(?s:.*?)\n\s*\}` ends at the first closing brace whose immediately
preceding run of whitespace contains a newline. The scan walks the text
left to right, so the capture list is in textual order of the matches. -/

/-- The regex whitespace class `\s`: space, tab, newline, carriage return,
vertical tab and form feed. -/
def isWsChar (c : Char) : Bool :=
  c == ' ' || c == '\t' || c == '\n' || c == '\r' ||
    c == Char.ofNat 11 || c == Char.ofNat 12

/-- Consume `"` then the capture `[^"]+` then `"`; the captured token and
the rest. -/
def matchQuoted (l : List Char) : Option (String × List Char) :=
  match l with
  | [] => none
  | c :: rest =>
    if c == quoteChar then
      let tok := rest.takeWhile (fun d => d != quoteChar)
      if tok.isEmpty then none
      else
        match rest.dropWhile (fun d => d != quoteChar) with
        | [] => none
        | _ :: rest2 => some (String.mk tok, rest2)
    else none

/-- Consume `\s+`: at least one whitespace character, then any more. -/
def expectWs (l : List Char) : Option (List Char) :=
  match l with
  | [] => none
  | c :: rest => if isWsChar c then some (rest.dropWhile isWsChar) else none

/-- Consume the lazy block body `(?s:.*?)\n\s*\}`: the consumed characters
(through the closing brace) and the rest. `canClose` records whether the
run of whitespace immediately behind the current position contains a
newline — exactly when `\n\s*` can end here, so the first brace seen with
`canClose` set closes the shortest body. -/
def findBlockClose : List Char → Bool → Option (List Char × List Char)
  | [], _ => none
  | c :: rest, canClose =>
    if c == braceClose && canClose then some ([c], rest)
    else
      let canClose2 := if c == '\n' then true else canClose && isWsChar c
      match findBlockClose rest canClose2 with
      | some (body, r) => some (c :: body, r)
      | none => none

/-- Try the resource pattern at a `^` position `l`: on success the captured
type and name, the whole matched text `cap.get(0)` and the rest of the
input. -/
def matchResourceAt (l : List Char) :
    Option ((String × String × String) × List Char) :=
  let l1 := l.dropWhile isWsChar
  match stripLeading l1 "resource".toList with
  | none => none
  | some l2 =>
    match expectWs l2 with
    | none => none
    | some l3 =>
      match matchQuoted l3 with
      | none => none
      | some (ty, l4) =>
        match expectWs l4 with
        | none => none
        | some l5 =>
          match matchQuoted l5 with
          | none => none
          | some (nm, l6) =>
            match l6.dropWhile isWsChar with
            | [] => none
            | c :: l8 =>
              if c == braceOpen then
                match findBlockClose l8 false with
                | none => none
                | some (_, rest) =>
                  some ((ty, nm, String.mk (l.take (l.length - rest.length))), rest)
              else none

/-- Try the module pattern at a `^` position `l`: the captured name, the
whole matched text and the rest. -/
def matchModuleAt (l : List Char) :
    Option ((String × String) × List Char) :=
  let l1 := l.dropWhile isWsChar
  match stripLeading l1 "module".toList with
  | none => none
  | some l2 =>
    match expectWs l2 with
    | none => none
    | some l3 =>
      match matchQuoted l3 with
      | none => none
      | some (nm, l4) =>
        match l4.dropWhile isWsChar with
        | [] => none
        | c :: l6 =>
          if c == braceOpen then
            match findBlockClose l6 false with
            | none => none
            | some (_, rest) =>
              some ((nm, String.mk (l.take (l.length - rest.length))), rest)
          else none

/-- `captures_iter`: successive non-overlapping leftmost matches. A match
is attempted at every `(?m)^` position; after a match the scan resumes
right behind it. Each step consumes at least one character, so fuel
`length + 1` runs the scan to the end of the text. -/
def scanBlocks {α : Type} (matchAt : List Char → Option (α × List Char)) :
    Nat → Bool → List Char → List α
  | 0, _, _ => []
  | _ + 1, _, [] => []
  | fuel + 1, atLineStart, c :: rest =>
    if atLineStart then
      match matchAt (c :: rest) with
      | some (cap, r) => cap :: scanBlocks matchAt fuel false r
      | none => scanBlocks matchAt fuel (c == '\n') rest
    else
      scanBlocks matchAt fuel (c == '\n') rest

/-- All matches of the resource pattern over `text`, in textual order:
`(type, name, matched text)` triples. -/
def resourceCaptures (text : String) : List (String × String × String) :=
  let cs := text.toList
  scanBlocks matchResourceAt (cs.length + 1) true cs

/-- All matches of the module pattern over `text`, in textual order:
`(name, matched text)` pairs. -/
def moduleCaptures (text : String) : List (String × String) :=
  let cs := text.toList
  scanBlocks matchModuleAt (cs.length + 1) true cs

/-- `full_block.contains("count =") || full_block.contains("count=")`
(src/project.rs lines 86 and 107). -/
def blockHasCount (full_block : String) : Bool :=
  occursIn full_block "count =" || occursIn full_block "count="

/-- `full_block.contains("for_each =") || full_block.contains("for_each=")`
(src/project.rs lines 87-88 and 108-109). -/
def blockHasForEach (full_block : String) : Bool :=
  occursIn full_block "for_each =" || occursIn full_block "for_each="

/-- The entity pushed for one resource capture (src/project.rs lines
90-98). -/
def resourceEntity (path : String) (cap : String × String × String) : Resource :=
  { resource_type := cap.1
    name := cap.2.1
    is_module := false
    file_path := path
    has_count := blockHasCount cap.2.2
    has_for_each := blockHasForEach cap.2.2
    index := none }

/-- The entity pushed for one module capture (src/project.rs lines
111-119). -/
def moduleEntity (path : String) (cap : String × String) : Resource :=
  { resource_type := ""
    name := cap.1
    is_module := true
    file_path := path
    has_count := blockHasCount cap.2
    has_for_each := blockHasForEach cap.2
    index := none }

/-- `TerraformProject::parse_file` (src/project.rs lines 75-123) as the
list of entities one file appends to the index: a failing read is the I/O
error; otherwise every resource capture's entity, in textual order, then
every module capture's entity, in textual order. -/
def parse_file (path : String) (content : Option String) :
    Except TfocusError (List Resource) :=
  match content with
  | none => Except.error (TfocusError.Io ("read_to_string " ++ path))
  | some text =>
    Except.ok ((resourceCaptures text).map (resourceEntity path)
      ++ (moduleCaptures text).map (moduleEntity path))

/-- The `for file_path in tf_files { project.parse_file(..)? }` loop of
`parse_directory` (src/project.rs lines 67-69): each file's entities in
file order, aborting on the first failure. -/
def parse_files :
    List (String × Option String) → Except TfocusError (List Resource)
  | [] => Except.ok []
  | (path, content) :: rest =>
    match parse_file path content with
    | Except.error e => Except.error e
    | Except.ok found =>
      match parse_files rest with
      | Except.error e => Except.error e
      | Except.ok more => Except.ok (found ++ more)

/-- `TerraformProject` (src/project.rs lines 11-13). -/
structure TerraformProject where
  resources : List Resource
deriving DecidableEq, Repr

/-- `TerraformProject::parse_directory` (src/project.rs lines 49-72): scan,
fail with the dedicated error when the scan succeeds with zero files,
otherwise parse every file (the file listing it prints is advisory
output). -/
def parse_directory (p : String) (entries : List FsTree) :
    Except TfocusError TerraformProject :=
  match find_terraform_files p entries with
  | Except.error e => Except.error e
  | Except.ok tf_files =>
    if tf_files.isEmpty then Except.error TfocusError.NoTerraformFiles
    else
      match parse_files tf_files with
      | Except.error e => Except.error e
      | Except.ok resources => Except.ok ⟨resources⟩

/-- The sort comparator of `get_all_resources` (src/project.rs lines
152-158): entities with equal `is_module` compare by `full_name`, others
by `b.is_module.cmp(&a.is_module)`, putting modules first. -/
def cmpResource (a b : Resource) : Ordering :=
  if a.is_module == b.is_module then cmpStr a.full_name b.full_name
  else cmpBool b.is_module a.is_module

/-- `TerraformProject::get_all_resources` (src/project.rs lines 150-160):
a clone of the entity list sorted by the comparator. Rust's `sort_by` is a
stable sort ordered so that no adjacent pair compares `Greater`; the
embedding is the stable `mergeSort` with `le a b := cmpResource a b ≠ gt`. -/
def TerraformProject.get_all_resources (proj : TerraformProject) :
    List Resource :=
  proj.resources.mergeSort (fun a b => cmpResource a b != Ordering.gt)

/-- `TerraformProject::get_resources_by_target` (src/project.rs lines
163-184): the three filters. -/
def TerraformProject.get_resources_by_target (proj : TerraformProject)
    (target : Target) : List Resource :=
  match target with
  | Target.File path =>
    proj.resources.filter (fun r => r.file_path == path)
  | Target.Module module_name =>
    proj.resources.filter (fun r => r.is_module && r.name == module_name)
  | Target.Resource resource_type name =>
    proj.resources.filter (fun r =>
      !r.is_module && r.resource_type == resource_type && r.name == name)

/-! ### Sample inputs for the concrete instances -/

/-- A double quote as a one-character string, for building declaration
texts. -/
def quoteS : String := String.mk [quoteChar]

/-- An opening brace as a one-character string. -/
def openS : String := String.mk [braceOpen]

/-- A closing brace as a one-character string. -/
def closeS : String := String.mk [braceClose]

/-- A sample resource entity as the parser would produce it. -/
def sampleRes : Resource :=
  { resource_type := "aws_instance"
    name := "web"
    is_module := false
    file_path := "envs/dev/main.tf"
    has_count := false
    has_for_each := false
    index := none }

/-! ### C2 — full_name and target_string -/

/-- C2: for every entity, `full_name` is `module.<name>` for a module and
`<resource_type>.<name>` otherwise, and `target_string` appends
`[<index>]` to `full_name` exactly when the index is set and at least one
of `has_count`/`has_for_each` is true, and is `full_name` in every other
case. -/
theorem c2_full_name_target_string (r : Resource) :
    r.full_name = (if r.is_module then "module." ++ r.name
                   else r.resource_type ++ "." ++ r.name)
    ∧ r.target_string =
        (match r.index with
         | some idx =>
           if r.has_count || r.has_for_each then r.full_name ++ "[" ++ idx ++ "]"
           else r.full_name
         | none => r.full_name) := by
  obtain ⟨ty, nm, im, fp, hc, hf, ix⟩ := r
  refine ⟨rfl, ?_⟩
  cases hc <;> cases hf <;> cases ix <;>
    simp [Resource.target_string, Resource.full_name]

/-! ### C5 — building target options -/

/-- C5: building target options from the empty entity list fails with the
"No targets specified" error; from a non-empty list it succeeds with
exactly one `-target=<target_string>` string per entity, in input order
(the map keeps the input order). -/
theorem c5_create_target_options :
    create_target_options [] =
      Except.error (TfocusError.ParseError "No targets specified")
    ∧ ∀ resources : List Resource, resources ≠ [] →
        create_target_options resources =
          Except.ok (resources.map (fun r => "-target=" ++ r.target_string)) := by
  refine ⟨rfl, ?_⟩
  intro resources h
  unfold create_target_options
  simp [h]

/-! ### C9 — the working-directory stage cannot fail after target creation -/

/-- C9: when `create_target_options` has succeeded on an entity slice, that
slice is non-empty, so `get_working_directory` on the same slice takes its
`Some` branch: it returns the first entity's file-path parent, with `"."`
only as the fallback for a parentless path, and never the "No resources
specified" error. -/
theorem c9_working_directory (resources : List Resource)
    (target_options : List String)
    (h : create_target_options resources = Except.ok target_options) :
    ∃ r rest, resources = r :: rest
      ∧ get_working_directory resources =
          Except.ok ((pathParent r.file_path).getD ".") := by
  cases resources with
  | nil => simp [create_target_options] at h
  | cons r rest => exact ⟨r, rest, rfl, rfl⟩

/-- C9 witness: the hypothesis and the conclusion at a concrete slice. -/
theorem c9_working_directory_witness :
    create_target_options [sampleRes] = Except.ok ["-target=aws_instance.web"]
    ∧ ∃ r rest, [sampleRes] = r :: rest
        ∧ get_working_directory [sampleRes] =
            Except.ok ((pathParent r.file_path).getD ".") :=
  ⟨by rfl, c9_working_directory [sampleRes] ["-target=aws_instance.web"] (by rfl)⟩

/-! ### C1 — what the executor reports when the flag was cleared -/

/-- C1: the code's outcome at the two failing-flag inputs. With the
cancellation flag cleared (`running = false`), a child that still exits 0
is reported as Cancelled (`Except.ok false`), but a child that exits
non-zero — the usual fate after the handler's own SIGTERM — falls into the
`Ok(status)` arm without the `status.success()` guard and is reported as
the TerraformError failure, not as Cancelled. This contradicts the claim
that Cancelled is reported regardless of the child's exit code. -/
theorem c1_cleared_flag_outcomes :
    execute_terraform_command Operation.Plan ["-target=aws_instance.web"] "."
        (SpawnOutcome.spawned (WaitOutcome.exited false "signal: 15")) false
      = Except.error (TfocusError.TerraformError
          "Terraform command failed with status: signal: 15")
    ∧ execute_terraform_command Operation.Plan ["-target=aws_instance.web"] "."
        (SpawnOutcome.spawned (WaitOutcome.exited true "exit status: 0")) false
      = Except.ok false :=
  ⟨rfl, rfl⟩

/-! ### C8 — the target filters -/

/-- C8: membership characterization of the three target filters — exact
file-path equality for `File`, name equality restricted to modules for
`Module`, (type, name) equality restricted to non-modules for `Resource`.
The query returns a plain list, so an unmatched target yields the empty
collection, never an error. -/
theorem c8_resources_by_target (proj : TerraformProject) (r : Resource) :
    (∀ path, r ∈ proj.get_resources_by_target (Target.File path)
      ↔ r ∈ proj.resources ∧ r.file_path = path)
    ∧ (∀ module_name, r ∈ proj.get_resources_by_target (Target.Module module_name)
      ↔ r ∈ proj.resources ∧ r.is_module = true ∧ r.name = module_name)
    ∧ (∀ resource_type name,
        r ∈ proj.get_resources_by_target (Target.Resource resource_type name)
      ↔ r ∈ proj.resources ∧ r.is_module = false
          ∧ r.resource_type = resource_type ∧ r.name = name) := by
  refine ⟨fun path => ?_, fun module_name => ?_, fun resource_type name => ?_⟩ <;>
    simp [TerraformProject.get_resources_by_target, List.mem_filter,
      Bool.and_eq_true, and_assoc]

/-! ### Scanner lemmas -/

theorem scanEntries_files_no_terraform (p : String) (l : List FsTree) :
    ∀ tfs, (scanEntries p l).1 = Except.ok tfs →
      ∀ f ∈ tfs, occursIn f.1 segTerraform = false := by
  induction p, l using scanEntries.induct with
  | case1 p =>
    intro tfs h f hf
    simp [scanEntries] at h
    subst h
    simp at hf
  | case2 p name content rest r v heq ih =>
    intro tfs h f hf
    simp only [scanEntries, heq] at h
    by_cases hk : (hasTfExt name && !(occursIn (p ++ "/" ++ name) segTerraform)) = true
    · rw [if_pos hk] at h
      cases r with
      | error e => simp [Except.map] at h
      | ok fs =>
        simp only [Except.map] at h
        injection h with h
        subst h
        rcases List.mem_cons.mp hf with hf | hf
        · subst hf
          have h2 := ((Bool.and_eq_true _ _).mp hk).2
          simpa using h2
        · exact ih fs (by rw [heq]) f hf
    · rw [if_neg hk] at h
      exact ih tfs (by rw [heq]; exact h) f hf
  | case3 p name sub rest path hcheck e v heq ihsub =>
    intro tfs h f hf
    simp only [scanEntries, heq, hcheck, if_pos] at h
    simp at h
  | case4 p name sub rest path hcheck found v heq r v2 heq2 ihsub ihrest =>
    intro tfs h f hf
    simp only [scanEntries, heq, heq2, hcheck, if_pos] at h
    cases r with
    | error e => simp [Except.map] at h
    | ok fs =>
      simp only [Except.map] at h
      injection h with h
      subst h
      rcases List.mem_append.mp hf with hf | hf
      · exact ihsub found (by rw [heq]) f hf
      · exact ihrest fs (by rw [heq2]) f hf
  | case5 p name readable sub rest path hcheck hnr =>
    intro tfs h f hf
    have hr : readable = false := by
      cases readable
      · rfl
      · exact absurd rfl hnr
    subst hr
    simp [scanEntries, hcheck] at h
  | case6 p name readable sub rest path hcheck ih =>
    intro tfs h f hf
    have : scanEntries p (FsTree.dir name readable sub :: rest) = scanEntries p rest := by
      simp [scanEntries]
      intro h1 h2
      exact absurd (by simp [h1, h2] : (!occursIn path segTerraform && !occursIn path segGit) = true) hcheck
    rw [this] at h
    exact ih tfs h f hf

theorem scanEntries_visited_clean (p : String) (l : List FsTree) :
    ∀ d ∈ (scanEntries p l).2,
      occursIn d segTerraform = false ∧ occursIn d segGit = false := by
  induction p, l using scanEntries.induct with
  | case1 p =>
    intro d hd
    simp [scanEntries] at hd
  | case2 p name content rest r v heq ih =>
    intro d hd
    simp only [scanEntries, heq] at hd
    exact ih d (by rw [heq]; exact hd)
  | case3 p name sub rest path hcheck e v heq ihsub =>
    intro d hd
    simp only [scanEntries, heq, hcheck, if_pos] at hd
    have hT : occursIn path segTerraform = false := by
      have := ((Bool.and_eq_true _ _).mp hcheck).1
      simpa using this
    have hG : occursIn path segGit = false := by
      have := ((Bool.and_eq_true _ _).mp hcheck).2
      simpa using this
    simp at hd
    rcases hd with hd | hd
    · subst hd
      exact ⟨hT, hG⟩
    · exact ihsub d (by rw [heq]; exact hd)
  | case4 p name sub rest path hcheck found v heq r v2 heq2 ihsub ihrest =>
    intro d hd
    simp only [scanEntries, heq, heq2, hcheck, if_pos] at hd
    have hT : occursIn path segTerraform = false := by
      have := ((Bool.and_eq_true _ _).mp hcheck).1
      simpa using this
    have hG : occursIn path segGit = false := by
      have := ((Bool.and_eq_true _ _).mp hcheck).2
      simpa using this
    simp at hd
    rcases hd with hd | hd | hd
    · subst hd
      exact ⟨hT, hG⟩
    · exact ihsub d (by rw [heq]; simpa using hd)
    · exact ihrest d (by rw [heq2]; simpa using hd)
  | case5 p name readable sub rest path hcheck hnr =>
    intro d hd
    have hr : readable = false := by
      cases readable
      · rfl
      · exact absurd rfl hnr
    subst hr
    simp only [scanEntries, hcheck, if_pos] at hd
    have hT : occursIn path segTerraform = false := by
      have := ((Bool.and_eq_true _ _).mp hcheck).1
      simpa using this
    have hG : occursIn path segGit = false := by
      have := ((Bool.and_eq_true _ _).mp hcheck).2
      simpa using this
    simp at hd
    subst hd
    exact ⟨hT, hG⟩
  | case6 p name readable sub rest path hcheck ih =>
    intro d hd
    have heqs : scanEntries p (FsTree.dir name readable sub :: rest) = scanEntries p rest := by
      simp [scanEntries]
      intro h1 h2
      exact absurd (by simp [h1, h2] : (!occursIn path segTerraform && !occursIn path segGit) = true) hcheck
    rw [heqs] at hd
    exact ih d hd

theorem scanEntries_error_io (p : String) (l : List FsTree) :
    ∀ e, (scanEntries p l).1 = Except.error e → ∃ s, e = TfocusError.Io s := by
  induction p, l using scanEntries.induct with
  | case1 p =>
    intro e h
    simp [scanEntries] at h
  | case2 p name content rest r v heq ih =>
    intro e h
    simp only [scanEntries, heq] at h
    by_cases hk : (hasTfExt name && !(occursIn (p ++ "/" ++ name) segTerraform)) = true
    · rw [if_pos hk] at h
      cases r with
      | error e2 =>
        simp only [Except.map] at h
        injection h with h
        subst h
        exact ih e2 (by rw [heq])
      | ok fs => simp [Except.map] at h
    · rw [if_neg hk] at h
      exact ih e (by rw [heq]; exact h)
  | case3 p name sub rest path hcheck e2 v heq ihsub =>
    intro e h
    simp only [scanEntries, heq, hcheck, if_pos] at h
    simp at h
    subst h
    exact ihsub e2 (by rw [heq])
  | case4 p name sub rest path hcheck found v heq r v2 heq2 ihsub ihrest =>
    intro e h
    simp only [scanEntries, heq, heq2, hcheck, if_pos] at h
    cases r with
    | error e2 =>
      simp only [Except.map] at h
      injection h with h
      subst h
      exact ihrest e2 (by rw [heq2])
    | ok fs => simp [Except.map] at h
  | case5 p name readable sub rest path hcheck hnr =>
    intro e h
    have hr : readable = false := by
      cases readable
      · rfl
      · exact absurd rfl hnr
    subst hr
    simp only [scanEntries, hcheck, if_pos] at h
    simp at h
    subst h
    exact ⟨"read_dir " ++ path, rfl⟩
  | case6 p name readable sub rest path hcheck ih =>
    intro e h
    have heqs : scanEntries p (FsTree.dir name readable sub :: rest) = scanEntries p rest := by
      simp [scanEntries]
      intro h1 h2
      exact absurd (by simp [h1, h2] : (!occursIn path segTerraform && !occursIn path segGit) = true) hcheck
    rw [heqs] at h
    exact ih e h

/-- The per-file parse loop fails only with the I/O error kind: the one
failure `parse_file` has is a failing read. -/
theorem parse_files_error_io :
    ∀ (files : List (String × Option String)) (e : TfocusError),
      parse_files files = Except.error e → ∃ s, e = TfocusError.Io s := by
  intro files
  induction files with
  | nil => intro e h; simp [parse_files] at h
  | cons f rest ih =>
    intro e h
    obtain ⟨path, content⟩ := f
    cases content with
    | none =>
      simp [parse_files, parse_file] at h
      exact ⟨"read_to_string " ++ path, h.symm⟩
    | some t =>
      simp only [parse_files, parse_file] at h
      cases hr : parse_files rest with
      | error e2 =>
        rw [hr] at h
        injection h with h
        subst h
        exact ih e2 hr
      | ok more => rw [hr] at h; simp at h

/-- Fuel-indexed evaluator of `scanEntries`, branch for branch; the fuel
only drives the recursion, and `scanEntriesF_eq` shows any fuel at least
the entry list's size computes `scanEntries` itself. It exists because the
kernel cannot run the well-founded recursion of `scanEntries` directly on
concrete trees. -/
def scanEntriesF : Nat → String → List FsTree →
    Except TfocusError (List (String × Option String)) × List String
  | 0, _, _ => (Except.ok [], [])
  | _ + 1, _, [] => (Except.ok [], [])
  | fuel + 1, p, FsTree.file name content :: rest =>
    let path := p ++ "/" ++ name
    let keep := hasTfExt name && !(occursIn path segTerraform)
    (match scanEntriesF fuel p rest with
     | (r, v) =>
       ((if keep then r.map (fun tf_files => (path, content) :: tf_files) else r), v))
  | fuel + 1, p, FsTree.dir name readable sub :: rest =>
    let path := p ++ "/" ++ name
    if !(occursIn path segTerraform) && !(occursIn path segGit) then
      if readable then
        match scanEntriesF fuel path sub with
        | (Except.error e, v) => (Except.error e, path :: v)
        | (Except.ok found, v) =>
          (match scanEntriesF fuel p rest with
           | (r, v2) => (r.map (fun tf_files => found ++ tf_files), (path :: v) ++ v2))
      else (Except.error (TfocusError.Io ("read_dir " ++ path)), [path])
    else scanEntriesF fuel p rest

/-- Any fuel at least the entry list's size runs the scan to completion. -/
theorem scanEntriesF_eq (fuel : Nat) :
    ∀ (p : String) (l : List FsTree), sizeOf l ≤ fuel →
      scanEntriesF fuel p l = scanEntries p l := by
  induction fuel with
  | zero =>
    intro p l hle
    cases l with
    | nil => simp at hle
    | cons x rest => simp at hle
  | succ fuel ih =>
    intro p l hle
    cases l with
    | nil => simp [scanEntriesF, scanEntries]
    | cons x rest =>
      cases x with
      | file name content =>
        have hrest : sizeOf rest ≤ fuel := by
          simp at hle
          omega
        simp only [scanEntriesF, scanEntries, ih p rest hrest]
      | dir name readable sub =>
        have hrest : sizeOf rest ≤ fuel := by
          simp at hle
          omega
        have hsub : sizeOf sub ≤ fuel := by
          simp at hle
          omega
        simp only [scanEntriesF, scanEntries, ih p rest hrest, ih (p ++ "/" ++ name) sub hsub]

/-- Evaluation form of `find_terraform_files` for concrete trees. -/
theorem find_terraform_files_eval (p : String) (l : List FsTree) :
    find_terraform_files p l = (scanEntriesF (sizeOf l) p l).1 := by
  unfold find_terraform_files
  rw [scanEntriesF_eq (sizeOf l) p l (le_refl _)]

/-- Evaluation form of `visited_dirs` for concrete trees. -/
theorem visited_dirs_eval (p : String) (l : List FsTree) :
    visited_dirs p l = p :: (scanEntriesF (sizeOf l) p l).2 := by
  unfold visited_dirs
  rw [scanEntriesF_eq (sizeOf l) p l (le_refl _)]

/-! ### C6 — the dedicated empty-scan error -/

/-- C6: `parse_directory` fails with the dedicated `NoTerraformFiles`
error exactly when the scan succeeds with zero files; a failing scan or a
failing file read surfaces as the distinct `Io` kind instead. The result
type returns no project in either failure case, so no partial index
escapes. -/
theorem c6_parse_directory_empty (p : String) (entries : List FsTree) :
    (parse_directory p entries = Except.error TfocusError.NoTerraformFiles
      ↔ find_terraform_files p entries = Except.ok [])
    ∧ (∀ e, find_terraform_files p entries = Except.error e →
        ∃ s, e = TfocusError.Io s)
    ∧ (∀ files e, parse_files files = Except.error e →
        ∃ s, e = TfocusError.Io s) := by
  refine ⟨?_, fun e h => scanEntries_error_io p entries e h, parse_files_error_io⟩
  constructor
  · intro h
    unfold parse_directory at h
    cases hf : find_terraform_files p entries with
    | error e =>
      exfalso
      rw [hf] at h
      simp at h
      obtain ⟨s, hs⟩ := scanEntries_error_io p entries e hf
      rw [h] at hs
      exact absurd hs (by simp)
    | ok tfs =>
      rw [hf] at h
      simp only [] at h
      by_cases he : tfs.isEmpty = true
      · rw [List.isEmpty_iff] at he
        simp [he]
      · exfalso
        rw [if_neg he] at h
        cases hp : parse_files tfs with
        | error e =>
          rw [hp] at h
          injection h with h
          obtain ⟨s, hs⟩ := parse_files_error_io tfs e hp
          rw [h] at hs
          exact absurd hs (by simp)
        | ok resources => rw [hp] at h; simp at h
  · intro h
    unfold parse_directory
    rw [h]
    simp

/-! ### C4 — no returned file lies inside a .terraform directory -/

/-- C4: every file path the scan returns is free of the "/.terraform/"
segment. A file inside a `.terraform` subdirectory of the scanned tree is
reached at path `<dir>/.terraform/<...>`, which carries that segment, so
no such file is ever returned — not even one with the `.tf` extension
(files directly inside `.terraform` are dropped by the push-site test,
deeper ones are never reached because the descent prunes their parent). -/
theorem c4_scan_excludes_terraform (p : String) (entries : List FsTree)
    (tf_files : List (String × Option String))
    (h : find_terraform_files p entries = Except.ok tf_files) :
    ∀ f ∈ tf_files, occursIn f.1 segTerraform = false :=
  scanEntries_files_no_terraform p entries tf_files h

/-- C4 witness: a tree with a `.tf` file inside `.terraform` — the scan
keeps only the outside file, and its path is clean. -/
theorem c4_scan_excludes_terraform_witness :
    find_terraform_files "root"
        [FsTree.file "main.tf" (some "x"),
         FsTree.dir ".terraform" true [FsTree.file "trap.tf" (some "y")]]
      = Except.ok [("root/main.tf", some "x")]
    ∧ ∀ f ∈ [("root/main.tf", (some "x" : Option String))],
        occursIn f.1 segTerraform = false :=
  ⟨by rw [find_terraform_files_eval]; rfl,
   c4_scan_excludes_terraform "root"
     [FsTree.file "main.tf" (some "x"),
      FsTree.dir ".terraform" true [FsTree.file "trap.tf" (some "y")]]
     [("root/main.tf", some "x")] (by rw [find_terraform_files_eval]; rfl)⟩

/-! ### C3 — pruning of excluded directories -/

/-- C3 counterexample: the scan does recurse into a directory that is the
reserved `.terraform` directory (and likewise `.git`): the pruning test
asks whether the path contains "/.terraform/" ("/.git/"), which the
directory's own path — with no trailing slash — does not, so `read_dir`
is invoked on it. -/
theorem c3_recurses_into_terraform_dir :
    "root/.terraform" ∈ visited_dirs "root"
        [FsTree.dir ".terraform" true [FsTree.file "main.tf" (some "x")]]
    ∧ "root/.git" ∈ visited_dirs "root"
        [FsTree.dir ".git" true [FsTree.file "x.tf" (some "y")]] := by
  constructor
  · have h1 : visited_dirs "root"
        [FsTree.dir ".terraform" true [FsTree.file "main.tf" (some "x")]]
        = ["root", "root/.terraform"] := by rw [visited_dirs_eval]; rfl
    rw [h1]
    exact List.mem_cons_of_mem _ (List.mem_cons_self _ _)
  · have h1 : visited_dirs "root"
        [FsTree.dir ".git" true [FsTree.file "x.tf" (some "y")]]
        = ["root", "root/.git"] := by rw [visited_dirs_eval]; rfl
    rw [h1]
    exact List.mem_cons_of_mem _ (List.mem_cons_self _ _)

/-- C3 amended: descent is pruned early at every directory whose path
contains the "/.terraform/" or "/.git/" segment — i.e. any directory
strictly below an excluded one — so apart from the scan root, every
directory the scan enters has a path free of both segments. The excluded
directory itself is still entered one level (see the counterexample),
because its own path lacks the trailing slash of the tested segment. -/
theorem c3_pruned_descent (p : String) (entries : List FsTree) (d : String)
    (hd : d ∈ visited_dirs p entries) (hne : d ≠ p) :
    occursIn d segTerraform = false ∧ occursIn d segGit = false := by
  unfold visited_dirs at hd
  rcases List.mem_cons.mp hd with hd | hd
  · exact absurd hd hne
  · exact scanEntries_visited_clean p entries d hd

/-- C3 amended witness: a concrete entered subdirectory, distinct from the
root, with a clean path. -/
theorem c3_pruned_descent_witness :
    ("root/envs" ∈ visited_dirs "root" [FsTree.dir "envs" true []]
      ∧ "root/envs" ≠ "root")
    ∧ occursIn "root/envs" segTerraform = false
    ∧ occursIn "root/envs" segGit = false := by
  have h1 : visited_dirs "root" [FsTree.dir "envs" true []]
      = ["root", "root/envs"] := by rw [visited_dirs_eval]; rfl
  have hmem : "root/envs" ∈ visited_dirs "root" [FsTree.dir "envs" true []] := by
    rw [h1]
    exact List.mem_cons_of_mem _ (List.mem_cons_self _ _)
  exact ⟨⟨hmem, by decide⟩,
    c3_pruned_descent "root" [FsTree.dir "envs" true []] "root/envs" hmem (by decide)⟩

/-! ### Comparator lemmas for the stable sort -/

/-- Reversing the arguments of `cmpChars` swaps the ordering. -/
theorem cmpChars_swap (xs : List Char) :
    ∀ ys, cmpChars ys xs = (cmpChars xs ys).swap := by
  induction xs with
  | nil =>
    intro ys
    cases ys <;> simp [cmpChars, Ordering.swap]
  | cons a xs ih =>
    intro ys
    cases ys with
    | nil => simp [cmpChars, Ordering.swap]
    | cons b ys =>
      rcases Nat.lt_trichotomy a.toNat b.toNat with h | h | h
      · have h1 : compare a.toNat b.toNat = Ordering.lt := Nat.compare_eq_lt.mpr h
        have h2 : compare b.toNat a.toNat = Ordering.gt := Nat.compare_eq_gt.mpr h
        simp [cmpChars, h1, h2, Ordering.swap]
      · have h1 : compare a.toNat b.toNat = Ordering.eq := Nat.compare_eq_eq.mpr h
        have h2 : compare b.toNat a.toNat = Ordering.eq := Nat.compare_eq_eq.mpr h.symm
        simp [cmpChars, h1, h2, ih ys]
      · have h1 : compare a.toNat b.toNat = Ordering.gt := Nat.compare_eq_gt.mpr h
        have h2 : compare b.toNat a.toNat = Ordering.lt := Nat.compare_eq_lt.mpr h
        simp [cmpChars, h1, h2, Ordering.swap]

/-- Transitivity of `cmpChars` in its at-most form. -/
theorem cmpChars_le_trans (xs : List Char) :
    ∀ ys zs, cmpChars xs ys ≠ Ordering.gt → cmpChars ys zs ≠ Ordering.gt →
      cmpChars xs zs ≠ Ordering.gt := by
  induction xs with
  | nil =>
    intro ys zs h1 h2
    cases zs <;> simp [cmpChars]
  | cons a xs ih =>
    intro ys zs h1 h2
    cases ys with
    | nil => simp [cmpChars] at h1
    | cons b ys =>
      cases zs with
      | nil => simp [cmpChars] at h2
      | cons c zs =>
        rcases Nat.lt_trichotomy a.toNat b.toNat with hab | hab | hab
        · rcases Nat.lt_trichotomy b.toNat c.toNat with hbc | hbc | hbc
          · have hac : compare a.toNat c.toNat = Ordering.lt :=
              Nat.compare_eq_lt.mpr (lt_trans hab hbc)
            simp [cmpChars, hac]
          · have hac : compare a.toNat c.toNat = Ordering.lt :=
              Nat.compare_eq_lt.mpr (hbc ▸ hab)
            simp [cmpChars, hac]
          · have hg : compare b.toNat c.toNat = Ordering.gt := Nat.compare_eq_gt.mpr hbc
            simp [cmpChars, hg] at h2
        · rcases Nat.lt_trichotomy b.toNat c.toNat with hbc | hbc | hbc
          · have hac : compare a.toNat c.toNat = Ordering.lt :=
              Nat.compare_eq_lt.mpr (hab ▸ hbc)
            simp [cmpChars, hac]
          · have hac : compare a.toNat c.toNat = Ordering.eq :=
              Nat.compare_eq_eq.mpr (hab.trans hbc)
            have he1 : compare a.toNat b.toNat = Ordering.eq := Nat.compare_eq_eq.mpr hab
            have he2 : compare b.toNat c.toNat = Ordering.eq := Nat.compare_eq_eq.mpr hbc
            simp [cmpChars, he1] at h1
            simp [cmpChars, he2] at h2
            simp [cmpChars, hac]
            exact ih ys zs h1 h2
          · have hg : compare b.toNat c.toNat = Ordering.gt := Nat.compare_eq_gt.mpr hbc
            simp [cmpChars, hg] at h2
        · have hg : compare a.toNat b.toNat = Ordering.gt := Nat.compare_eq_gt.mpr hab
          simp [cmpChars, hg] at h1

/-- The sort comparator is total in its at-most form. -/
theorem cmpResource_le_total (a b : Resource) :
    cmpResource a b ≠ Ordering.gt ∨ cmpResource b a ≠ Ordering.gt := by
  unfold cmpResource
  by_cases hm : a.is_module = b.is_module
  · rw [if_pos (by simp [hm]), if_pos (by simp [hm])]
    rcases hcmp : cmpStr a.full_name b.full_name with _ | _ | _
    · left; simp [hcmp]
    · left; simp [hcmp]
    · right
      unfold cmpStr at hcmp ⊢
      rw [cmpChars_swap, hcmp]
      simp [Ordering.swap]
  · rw [if_neg (by simpa using hm), if_neg (by simp; exact fun h => hm h.symm)]
    cases ha : a.is_module <;> cases hb : b.is_module <;>
      simp [ha, hb] at hm ⊢ <;> simp [cmpBool]

/-- The sort comparator is transitive in its at-most form. -/
theorem cmpResource_le_trans (a b c : Resource) :
    cmpResource a b ≠ Ordering.gt → cmpResource b c ≠ Ordering.gt →
      cmpResource a c ≠ Ordering.gt := by
  intro h1 h2
  unfold cmpResource at h1 h2 ⊢
  cases ha : a.is_module <;> cases hb : b.is_module <;> cases hc : c.is_module <;>
    simp [ha, hb, hc, cmpBool] at h1 h2 ⊢ <;>
    exact cmpChars_le_trans _ _ _ h1 h2

/-- The boolean form `x != gt` of the comparator agrees with the
propositional at-most form. -/
theorem bne_gt_iff (x : Ordering) : (x != Ordering.gt) = true ↔ x ≠ Ordering.gt := by
  cases x <;> decide

/-! ### C7 — the sorted entity listing -/

/-- C7: `get_all_resources` returns every entity of the index exactly once
(a permutation of the stored list), ordered with every Module entity
before every Resource entity, and within each of the two groups in
ascending `full_name` order (`cmpStr` is Rust's byte-lexicographic string
comparison; not `gt` is the at-most form). -/
theorem c7_all_entities_sorted (proj : TerraformProject) :
    proj.get_all_resources.Perm proj.resources
    ∧ List.Pairwise (fun a b =>
        (b.is_module = true → a.is_module = true)
        ∧ (a.is_module = b.is_module →
            cmpStr a.full_name b.full_name ≠ Ordering.gt))
      proj.get_all_resources := by
  constructor
  · exact List.mergeSort_perm proj.resources _
  · have hs := @List.sorted_mergeSort Resource
      (fun a b : Resource => cmpResource a b != Ordering.gt)
      (fun a b c h1 h2 => by
        have h1' : cmpResource a b ≠ Ordering.gt := (bne_gt_iff _).mp h1
        have h2' : cmpResource b c ≠ Ordering.gt := (bne_gt_iff _).mp h2
        exact (bne_gt_iff _).mpr (cmpResource_le_trans a b c h1' h2'))
      (fun a b => by
        rcases cmpResource_le_total a b with h | h
        · simp [(bne_gt_iff _).mpr h]
        · simp [(bne_gt_iff _).mpr h])
      proj.resources
    refine hs.imp ?_
    intro a b h
    have h' : cmpResource a b ≠ Ordering.gt := (bne_gt_iff _).mp h
    unfold cmpResource at h'
    by_cases hm : a.is_module = b.is_module
    · rw [if_pos (by simp [hm])] at h'
      exact ⟨fun hb => hm ▸ hb, fun _ => h'⟩
    · rw [if_neg (by simpa using hm)] at h'
      cases ha : a.is_module <;> cases hb : b.is_module
      · exact absurd (ha.trans hb.symm) hm
      · exfalso
        rw [ha, hb] at h'
        exact h' rfl
      · exact ⟨fun hbt => rfl, fun heq => absurd heq (by simp)⟩
      · exact absurd (ha.trans hb.symm) hm

/-! ### Per-file parse lemmas -/

/-- Every entity `parse_file` produces carries the parsed file's path. -/
theorem parse_file_file_path (path : String) (content : Option String)
    (rs : List Resource) (h : parse_file path content = Except.ok rs) :
    ∀ r ∈ rs, r.file_path = path := by
  cases content with
  | none => simp [parse_file] at h
  | some t =>
    simp only [parse_file] at h
    injection h with h
    subst h
    intro r hr
    rcases List.mem_append.mp hr with hr | hr
    · obtain ⟨c, _, rfl⟩ := List.mem_map.mp hr
      rfl
    · obtain ⟨c, _, rfl⟩ := List.mem_map.mp hr
      rfl

/-- Parsing files none of which is at path `p` contributes no entity whose
`file_path` is `p`. -/
theorem parse_files_filter_none (p : String) :
    ∀ (files : List (String × Option String)) (resources : List Resource),
      parse_files files = Except.ok resources →
      files.filter (fun f => f.1 == p) = [] →
      resources.filter (fun r => r.file_path == p) = [] := by
  intro files
  induction files with
  | nil =>
    intro resources h hf
    simp [parse_files] at h
    subst h
    rfl
  | cons fc rest ih =>
    intro resources h hf
    obtain ⟨q, c⟩ := fc
    simp only [parse_files] at h
    cases hpf : parse_file q c with
    | error e => rw [hpf] at h; simp at h
    | ok rs =>
      rw [hpf] at h
      cases hpr : parse_files rest with
      | error e => rw [hpr] at h; simp at h
      | ok more =>
        rw [hpr] at h
        injection h with h
        subst h
        rw [List.filter_cons] at hf
        by_cases hq : ((q, c).1 == p) = true
        · rw [if_pos hq] at hf
          simp at hf
        · rw [if_neg hq] at hf
          rw [List.filter_append, ih more hpr hf, List.append_nil]
          rw [List.filter_eq_nil_iff]
          intro r hr
          rw [parse_file_file_path q c rs hpf r hr]
          exact hq

/-- Parsing a file list in which path `p` appears exactly once, carrying
text `t`, and filtering the aggregated entities back to `p` recovers
exactly that file's parse output: its resource entities, then its module
entities. -/
theorem parse_files_filter_single (p t : String) :
    ∀ (files : List (String × Option String)) (resources : List Resource),
      parse_files files = Except.ok resources →
      files.filter (fun f => f.1 == p) = [(p, some t)] →
      resources.filter (fun r => r.file_path == p)
        = (resourceCaptures t).map (resourceEntity p)
          ++ (moduleCaptures t).map (moduleEntity p) := by
  intro files
  induction files with
  | nil =>
    intro resources h hf
    simp at hf
  | cons fc rest ih =>
    intro resources h hf
    obtain ⟨q, c⟩ := fc
    simp only [parse_files] at h
    cases hpf : parse_file q c with
    | error e => rw [hpf] at h; simp at h
    | ok rs =>
      rw [hpf] at h
      cases hpr : parse_files rest with
      | error e => rw [hpr] at h; simp at h
      | ok more =>
        rw [hpr] at h
        injection h with h
        subst h
        rw [List.filter_append]
        rw [List.filter_cons] at hf
        by_cases hq : ((q, c).1 == p) = true
        · rw [if_pos hq] at hf
          injection hf with hf1 hf2
          have hq1 : q = p := congrArg Prod.fst hf1
          have hc : c = some t := congrArg Prod.snd hf1
          rw [hq1, hc] at hpf
          have hself : rs.filter (fun r => r.file_path == p) = rs :=
            List.filter_eq_self.mpr (fun r hr => by
              rw [parse_file_file_path p (some t) rs hpf r hr]
              exact beq_self_eq_true p)
          rw [hself, parse_files_filter_none p rest more hpr hf2, List.append_nil]
          simp only [parse_file] at hpf
          injection hpf with hpf
          exact hpf.symm
        · rw [if_neg hq] at hf
          have hrs : rs.filter (fun r => r.file_path == p) = [] := by
            rw [List.filter_eq_nil_iff]
            intro r hr
            rw [parse_file_file_path q c rs hpf r hr]
            exact hq
          rw [hrs, List.nil_append]
          exact ih more hpr hf

/-! ### C10 — resources before modules, per file -/

/-- C10: a parsed file appends all of its resource entities before all of
its module entities, however the blocks interleave in the text (the
source's two capture loops run in that order), so filtering the index back
to that file lists its resources first, then its modules, each group in
textual order (the capture lists are in match order, left to right). -/
theorem c10_resources_before_modules (files : List (String × Option String))
    (p t : String) (resources : List Resource)
    (hp : parse_files files = Except.ok resources)
    (ho : files.filter (fun f => f.1 == p) = [(p, some t)]) :
    TerraformProject.get_resources_by_target ⟨resources⟩ (Target.File p)
      = (resourceCaptures t).map (resourceEntity p)
        ++ (moduleCaptures t).map (moduleEntity p)
    ∧ (∀ r ∈ (resourceCaptures t).map (resourceEntity p), r.is_module = false)
    ∧ (∀ r ∈ (moduleCaptures t).map (moduleEntity p), r.is_module = true) := by
  refine ⟨?_, ?_, ?_⟩
  · exact parse_files_filter_single p t files resources hp ho
  · intro r hr
    obtain ⟨c, _, rfl⟩ := List.mem_map.mp hr
    rfl
  · intro r hr
    obtain ⟨c, _, rfl⟩ := List.mem_map.mp hr
    rfl

/-- The interleaved declaration text of the C10 witness: a module block
first, then a resource block. -/
def c10text : String :=
  "module " ++ quoteS ++ "app" ++ quoteS ++ " " ++ openS ++ "\n  source = 1\n" ++ closeS
    ++ "\nresource " ++ quoteS ++ "aws_instance" ++ quoteS ++ " "
    ++ quoteS ++ "web" ++ quoteS ++ " " ++ openS ++ "\n  count = 2\n" ++ closeS ++ "\n"

/-- What parsing the C10 witness file appends: the resource entity first,
though its block is second in the text. -/
def c10resources : List Resource :=
  [{ resource_type := "aws_instance"
     name := "web"
     is_module := false
     file_path := "main.tf"
     has_count := true
     has_for_each := false
     index := none },
   { resource_type := ""
     name := "app"
     is_module := true
     file_path := "main.tf"
     has_count := false
     has_for_each := false
     index := none }]

set_option maxRecDepth 100000 in
/-- C10 witness: the hypotheses and the conclusion at the concrete
interleaved file. -/
theorem c10_resources_before_modules_witness :
    parse_files [("main.tf", some c10text)] = Except.ok c10resources
    ∧ ([("main.tf", some c10text)].filter (fun f => f.1 == "main.tf")
        = [("main.tf", some c10text)])
    ∧ (TerraformProject.get_resources_by_target ⟨c10resources⟩
          (Target.File "main.tf")
        = (resourceCaptures c10text).map (resourceEntity "main.tf")
          ++ (moduleCaptures c10text).map (moduleEntity "main.tf")
      ∧ (∀ r ∈ (resourceCaptures c10text).map (resourceEntity "main.tf"),
          r.is_module = false)
      ∧ (∀ r ∈ (moduleCaptures c10text).map (moduleEntity "main.tf"),
          r.is_module = true)) :=
  ⟨by rfl, by rfl,
   c10_resources_before_modules [("main.tf", some c10text)] "main.tf" c10text
     c10resources (by rfl) (by rfl)⟩

end Tfocus

